import Mathlib

/-!
Verification of the valorant-bracket-simulator core against its
natural-language specification.

The Python sources are shallowly embedded:

* floating-point arithmetic is modelled over `ℝ` where the code uses the
  transcendental `10 ** x` (the ELO expected-score formula), and over `ℚ`
  where the code is purely rational (binomial series probabilities,
  percentage statistics);
* the global `random` stream is modelled by an oracle parameter: each match
  consumes one index of a `pick` function that returns one of the two teams,
  exactly the shape of `team_a if random.random() < p else team_b`;
* Python exceptions are modelled with `Except String`; an out-of-bounds list
  index is the value `Except.error ("IndexError")`;
* `dict`s are modelled as association lists, `defaultdict(int)` counters as
  counting functions over the recorded data.
-/

namespace BracketSim

/-- Model of `BracketSimulator.series_win_probability` (src/src/bracket_simulator.py):

    if best_of <= 1: return map_win_prob
    wins_needed = best_of // 2 + 1
    series_prob = 0.0
    for k in range(wins_needed, best_of + 1):
        series_prob += math.comb(best_of, k) * (p ** k) * (q ** (best_of - k))

The Python `for` loop over `range(wins_needed, best_of + 1)` is the fold over
`List.range' wins_needed (best_of + 1 - wins_needed)` below. -/
def series_win_probability (map_win_prob : ℚ) (best_of : ℕ) : ℚ :=
  if best_of ≤ 1 then map_win_prob
  else
    let wins_needed := best_of / 2 + 1
    let p := map_win_prob
    let q := 1 - p
    (List.range' wins_needed (best_of + 1 - wins_needed)).foldl
      (fun acc k => acc + (best_of.choose k : ℚ) * p ^ k * q ^ (best_of - k)) 0

/-- The binomial tail `∑ k in [j..n], C(n,k) p^k (1-p)^(n-k)`: the closed
formula the spec states for the series probability. -/
def binomTail (n j : ℕ) (p : ℚ) : ℚ :=
  ∑ k in Finset.Icc j n, (n.choose k : ℚ) * p ^ k * (1 - p) ^ (n - k)

theorem foldl_add_eq_sum (f : ℕ → ℚ) (l : List ℕ) (init : ℚ) :
    l.foldl (fun acc k => acc + f k) init = init + (l.map f).sum := by
  induction l generalizing init with
  | nil => simp
  | cons a t ih => simp [List.foldl_cons, ih, add_assoc]

theorem range'_map_sum (f : ℕ → ℚ) (a : ℕ) :
    ∀ len : ℕ, ((List.range' a len).map f).sum = ∑ i in Finset.range len, f (a + i) := by
  intro len
  induction len generalizing a with
  | zero => simp
  | succ n ih =>
    rw [List.range'_succ, Finset.sum_range_succ']
    simp only [List.map_cons, List.sum_cons, ih (a + 1)]
    rw [add_comm]
    have h1 : ∀ i ∈ Finset.range n, f (a + 1 + i) = f (a + (i + 1)) :=
      fun i _ => congrArg f (by omega)
    rw [Finset.sum_congr rfl h1, Nat.add_zero]

/-- The accumulation loop of `series_win_probability` computes the binomial
tail sum of the spec. -/
theorem series_win_probability_eq_binomTail (p : ℚ) (b : ℕ) (hb : 2 ≤ b) :
    series_win_probability p b = binomTail b (b / 2 + 1) p := by
  have hble : ¬ b ≤ 1 := by omega
  rw [series_win_probability, if_neg hble, binomTail]
  rw [foldl_add_eq_sum, range'_map_sum, zero_add]
  rw [← Nat.Ico_succ_right, Finset.sum_Ico_eq_sum_range]

theorem binomTail_pascal (n j : ℕ) (p : ℚ) :
    binomTail (n + 1) (j + 1) p
      = (1 - p) * binomTail n (j + 1) p + p * binomTail n j p := by
  by_cases hjn : j + 1 ≤ n + 1
  · have hsplit : ∀ k ∈ Finset.Icc (j + 1) (n + 1),
        ((n + 1).choose k : ℚ) * p ^ k * (1 - p) ^ (n + 1 - k)
          = (n.choose (k - 1) : ℚ) * p ^ k * (1 - p) ^ (n + 1 - k)
            + (n.choose k : ℚ) * p ^ k * (1 - p) ^ (n + 1 - k) := by
      intro k hk
      obtain ⟨hk1, _⟩ := Finset.mem_Icc.mp hk
      obtain ⟨k', rfl⟩ : ∃ k', k = k' + 1 := ⟨k - 1, by omega⟩
      rw [Nat.choose_succ_succ']
      push_cast
      ring
    rw [binomTail, Finset.sum_congr rfl hsplit, Finset.sum_add_distrib]
    have hfirst : ∑ k in Finset.Icc (j + 1) (n + 1),
        (n.choose (k - 1) : ℚ) * p ^ k * (1 - p) ^ (n + 1 - k)
          = p * binomTail n j p := by
      have hmap : Finset.Icc (j + 1) (n + 1)
          = (Finset.Icc j n).map (addRightEmbedding 1) := by
        rw [Finset.map_add_right_Icc]
      rw [hmap, Finset.sum_map, binomTail, Finset.mul_sum]
      refine Finset.sum_congr rfl (fun k hk => ?_)
      obtain ⟨_, hk2⟩ := Finset.mem_Icc.mp hk
      have h1 : addRightEmbedding 1 k = k + 1 := rfl
      have h2 : k + 1 - 1 = k := by omega
      have h3 : n + 1 - (k + 1) = n - k := by omega
      rw [h1, h2, h3, pow_succ]
      ring
    have hsecond : ∑ k in Finset.Icc (j + 1) (n + 1),
        (n.choose k : ℚ) * p ^ k * (1 - p) ^ (n + 1 - k)
          = (1 - p) * binomTail n (j + 1) p := by
      rw [Finset.sum_Icc_succ_top hjn]
      have htop : (n.choose (n + 1) : ℚ) * p ^ (n + 1) * (1 - p) ^ (n + 1 - (n + 1)) = 0 := by
        rw [Nat.choose_eq_zero_of_lt (by omega)]
        push_cast
        ring
      rw [htop, add_zero, binomTail, Finset.mul_sum]
      refine Finset.sum_congr rfl (fun k hk => ?_)
      obtain ⟨_, hk2⟩ := Finset.mem_Icc.mp hk
      have h3 : n + 1 - k = (n - k) + 1 := by omega
      rw [h3, pow_succ]
      ring
    rw [hfirst, hsecond]
    ring
  · have h1 : Finset.Icc (j + 1) (n + 1) = ∅ := Finset.Icc_eq_empty (by omega)
    have h2 : Finset.Icc (j + 1) n = ∅ := Finset.Icc_eq_empty (by omega)
    have h3 : Finset.Icc j n = ∅ := Finset.Icc_eq_empty (by omega)
    simp [binomTail, h1, h2, h3]

theorem binomTail_peel (n j : ℕ) (p : ℚ) (h : j ≤ n) :
    binomTail n j p
      = (n.choose j : ℚ) * p ^ j * (1 - p) ^ (n - j) + binomTail n (j + 1) p := by
  have hmem : j ∈ Finset.Icc j n := Finset.mem_Icc.mpr ⟨le_refl j, h⟩
  rw [binomTail, ← Finset.add_sum_erase _ _ hmem]
  congr 1
  rw [binomTail]
  congr 1
  rw [Finset.Icc_erase_left, ← Nat.Icc_succ_left]

/-- The key step identity: moving from best-of-(2m+1) to best-of-(2m+3)
changes the series probability by `C(2m+1, m+1) p^(m+1) (1-p)^(m+1) (2p-1)`. -/
theorem binomTail_step (m : ℕ) (p : ℚ) :
    binomTail (2 * m + 3) (m + 2) p
      = binomTail (2 * m + 1) (m + 1) p
        + ((2 * m + 1).choose (m + 1) : ℚ) * p ^ (m + 1) * (1 - p) ^ (m + 1) * (2 * p - 1) := by
  have e1 : 2 * m + 3 = (2 * m + 2) + 1 := by omega
  have e2 : 2 * m + 2 = (2 * m + 1) + 1 := by omega
  have h1 := binomTail_pascal (2 * m + 2) (m + 1) p
  have h2 := binomTail_pascal (2 * m + 1) (m + 1) p
  have h3 := binomTail_pascal (2 * m + 1) m p
  have h4 := binomTail_peel (2 * m + 1) (m + 1) p (by omega)
  have h5 := binomTail_peel (2 * m + 1) m p (by omega)
  have hsymm : (2 * m + 1).choose m = (2 * m + 1).choose (m + 1) := by
    have := Nat.choose_symm (n := 2 * m + 1) (k := m + 1) (by omega)
    have he : 2 * m + 1 - (m + 1) = m := by omega
    rw [he] at this
    omega
  have hsub1 : 2 * m + 1 - (m + 1) = m := by omega
  have hsub2 : 2 * m + 1 - m = m + 1 := by omega
  rw [hsub1] at h4
  rw [hsub2, hsymm] at h5
  rw [e1, h1, e2, h2, e2, h3, h5, h4]
  ring

/-- For every odd `best_of = 2m+1` the code's loop value is the binomial
tail at `m+1` wins needed. -/
theorem series_win_probability_odd (p : ℚ) (m : ℕ) :
    series_win_probability p (2 * m + 1) = binomTail (2 * m + 1) (m + 1) p := by
  match m with
  | 0 =>
    rw [series_win_probability, if_pos (by norm_num), binomTail]
    rw [show Finset.Icc 1 (2 * 0 + 1) = {1} from rfl]
    simp
  | m + 1 =>
    rw [series_win_probability_eq_binomTail p (2 * (m + 1) + 1) (by omega)]
    congr 1
    omega

theorem binomTail_strict_step (m : ℕ) (p : ℚ) (h1 : 1 / 2 < p) (h2 : p < 1) :
    binomTail (2 * m + 1) (m + 1) p < binomTail (2 * m + 3) (m + 2) p := by
  rw [binomTail_step]
  have hc : 0 < ((2 * m + 1).choose (m + 1) : ℚ) := by
    exact_mod_cast Nat.choose_pos (by omega)
  have hp : 0 < p := by linarith
  have hq : 0 < 1 - p := by linarith
  have h2p : 0 < 2 * p - 1 := by linarith
  have := mul_pos (mul_pos (mul_pos hc (pow_pos hp (m + 1))) (pow_pos hq (m + 1))) h2p
  linarith

theorem binomTail_anti_step (m : ℕ) (p : ℚ) (h1 : 0 < p) (h2 : p < 1 / 2) :
    binomTail (2 * m + 3) (m + 2) p < binomTail (2 * m + 1) (m + 1) p := by
  rw [binomTail_step]
  have hc : 0 < ((2 * m + 1).choose (m + 1) : ℚ) := by
    exact_mod_cast Nat.choose_pos (by omega)
  have hq : 0 < 1 - p := by linarith
  have h2p : 2 * p - 1 < 0 := by linarith
  have hpos := mul_pos (mul_pos hc (pow_pos h1 (m + 1))) (pow_pos hq (m + 1))
  nlinarith

theorem binomTail_half (m : ℕ) : binomTail (2 * m + 1) (m + 1) (1 / 2) = 1 / 2 := by
  induction m with
  | zero =>
    rw [binomTail]
    rw [show Finset.Icc 1 (2 * 0 + 1) = {1} from rfl]
    norm_num
  | succ n ih =>
    have e1 : 2 * (n + 1) + 1 = 2 * n + 3 := by omega
    have e2 : n + 1 + 1 = n + 2 := by omega
    rw [e1, e2, binomTail_step, ih]
    norm_num

/-- The validator's closed-form best-of-3 series probability
(`predict_tournament_winner`, src/src/tournament_validator.py):

    p_win_2_0 = map_prob_a ** 2
    p_win_2_1 = 2 * (map_prob_a ** 2) * (1 - map_prob_a)
    series_prob_a = p_win_2_0 + p_win_2_1
-/
def validator_series_prob_bo3 (map_prob_a : ℚ) : ℚ :=
  let p_win_2_0 := map_prob_a ^ 2
  let p_win_2_1 := 2 * map_prob_a ^ 2 * (1 - map_prob_a)
  p_win_2_0 + p_win_2_1

/-- C3: `series_win_probability(mapProb, 1)` returns `mapProb` unchanged, and
for every odd `bestOf ≥ 3` it returns the binomial tail sum over
`k = bestOf/2 + 1 .. bestOf` of `C(bestOf,k) * p^k * (1-p)^(bestOf-k)`. -/
theorem series_win_probability_spec (p : ℚ) :
    series_win_probability p 1 = p ∧
      ∀ b : ℕ, Odd b → 3 ≤ b →
        series_win_probability p b
          = ∑ k in Finset.Icc (b / 2 + 1) b,
              (b.choose k : ℚ) * p ^ k * (1 - p) ^ (b - k) := by
  constructor
  · rw [series_win_probability, if_pos (by norm_num)]
  · intro b _ hb
    rw [series_win_probability_eq_binomTail p b (by omega), binomTail]

/-- Witness for C3 at `p = 2/3`, `bestOf = 3`. -/
theorem series_win_probability_spec_witness :
    (Odd 3 ∧ 3 ≤ 3) ∧
      series_win_probability (2/3) 3
        = ∑ k in Finset.Icc (3 / 2 + 1) 3,
            ((3:ℕ).choose k : ℚ) * (2/3) ^ k * (1 - 2/3) ^ (3 - k) :=
  ⟨⟨⟨1, by norm_num⟩, by norm_num⟩,
    (series_win_probability_spec (2/3)).2 3 ⟨1, by norm_num⟩ (by norm_num)⟩

/-- C4 as stated is false at `mapProb = 1 > 0.5`: the series probability does
not strictly increase with `bestOf` there (it is constantly 1). -/
theorem series_amplification_counterexample :
    (1/2 : ℚ) < 1 ∧ ¬ series_win_probability 1 3 < series_win_probability 1 5 := by
  refine ⟨by norm_num, ?_⟩
  have h3 : series_win_probability 1 3 = 1 := by
    rw [series_win_probability]
    norm_num [List.range']
  have h5 : series_win_probability 1 5 = 1 := by
    rw [series_win_probability]
    norm_num [List.range']
  rw [h3, h5]
  exact lt_irrefl 1

/-- C4 amended: for `0.5 < mapProb < 1` the series win probability strictly
increases in the odd `bestOf` (in particular `p < swp(p,3) < swp(p,5)`), for
`0 < mapProb < 0.5` it strictly decreases, and at `mapProb = 0.5` it equals
`0.5` for every odd `bestOf`.  (At the endpoints `p = 0` and `p = 1` the
value is constant, so the strictness in the original claim fails there.) -/
theorem series_win_probability_amplification (p : ℚ) (m1 m2 : ℕ) :
    (1/2 < p → p < 1 → m1 < m2 →
        series_win_probability p (2 * m1 + 1) < series_win_probability p (2 * m2 + 1))
    ∧ (0 < p → p < 1/2 → m1 < m2 →
        series_win_probability p (2 * m2 + 1) < series_win_probability p (2 * m1 + 1))
    ∧ series_win_probability (1/2) (2 * m1 + 1) = 1/2
    ∧ (1/2 < p → p < 1 →
        p < series_win_probability p 3 ∧
          series_win_probability p 3 < series_win_probability p 5) := by
  have key : ∀ q : ℚ, 1/2 < q → q < 1 →
      StrictMono (fun m => binomTail (2 * m + 1) (m + 1) q) := by
    intro q hq1 hq2
    refine strictMono_nat_of_lt_succ (fun n => ?_)
    have e1 : 2 * (n + 1) + 1 = 2 * n + 3 := by omega
    have e2 : n + 1 + 1 = n + 2 := by omega
    simp only [e1, e2]
    exact binomTail_strict_step n q hq1 hq2
  have keyA : ∀ q : ℚ, 0 < q → q < 1/2 →
      StrictAnti (fun m => binomTail (2 * m + 1) (m + 1) q) := by
    intro q hq1 hq2
    refine strictAnti_nat_of_succ_lt (fun n => ?_)
    have e1 : 2 * (n + 1) + 1 = 2 * n + 3 := by omega
    have e2 : n + 1 + 1 = n + 2 := by omega
    simp only [e1, e2]
    exact binomTail_anti_step n q hq1 hq2
  refine ⟨?_, ?_, ?_, ?_⟩
  · intro h1 h2 hm
    rw [series_win_probability_odd p m1, series_win_probability_odd p m2]
    exact key p h1 h2 hm
  · intro h1 h2 hm
    rw [series_win_probability_odd p m1, series_win_probability_odd p m2]
    exact keyA p h1 h2 hm
  · rw [series_win_probability_odd (1/2) m1]
    exact binomTail_half m1
  · intro h1 h2
    have h01 : binomTail (2 * 0 + 1) (0 + 1) p < binomTail (2 * 1 + 1) (1 + 1) p :=
      key p h1 h2 (by norm_num)
    have h12 : binomTail (2 * 1 + 1) (1 + 1) p < binomTail (2 * 2 + 1) (2 + 1) p :=
      key p h1 h2 (by norm_num)
    have e0 : binomTail (2 * 0 + 1) (0 + 1) p = p := by
      rw [← series_win_probability_odd, series_win_probability, if_pos (by norm_num)]
    constructor
    · rw [show (3:ℕ) = 2 * 1 + 1 from rfl, series_win_probability_odd]
      calc p = binomTail (2 * 0 + 1) (0 + 1) p := e0.symm
        _ < binomTail (2 * 1 + 1) (1 + 1) p := h01
    · rw [show (3:ℕ) = 2 * 1 + 1 from rfl, show (5:ℕ) = 2 * 2 + 1 from rfl,
        series_win_probability_odd, series_win_probability_odd]
      exact h12

/-- Witness for the amended C4 at `p = 3/4` (increase), `p = 1/4` (decrease)
and `p = 1/2` (constant). -/
theorem series_win_probability_amplification_witness :
    ((1:ℚ)/2 < 3/4 ∧ (3/4:ℚ) < 1 ∧ (0:ℕ) < 1) ∧
      series_win_probability (3/4) 1 < series_win_probability (3/4) 3 ∧
      series_win_probability (1/4) 3 < series_win_probability (1/4) 1 ∧
      series_win_probability (1/2) 1 = 1/2 ∧
      (3/4:ℚ) < series_win_probability (3/4) 3 := by
  refine ⟨by norm_num, ?_, ?_, ?_, ?_⟩
  · exact (series_win_probability_amplification (3/4) 0 1).1
      (by norm_num) (by norm_num) (by norm_num)
  · exact (series_win_probability_amplification (1/4) 0 1).2.1
      (by norm_num) (by norm_num) (by norm_num)
  · exact (series_win_probability_amplification (1/2) 0 1).2.2.1
  · exact ((series_win_probability_amplification (3/4) 0 1).2.2.2
      (by norm_num) (by norm_num)).1

/-- C9: the validator's closed-form BO3 probability `p² + 2p²(1-p)` agrees
with `BracketSimulator.series_win_probability(p, 3)` for every `p`. -/
theorem validator_bo3_eq_series_win_probability (p : ℚ) :
    validator_series_prob_bo3 p = series_win_probability p 3 := by
  rw [series_win_probability_eq_binomTail p 3 (by norm_num), binomTail]
  rw [show Finset.Icc (3 / 2 + 1 : ℕ) 3 = {2, 3} by decide]
  rw [Finset.sum_pair (by norm_num)]
  rw [validator_series_prob_bo3]
  rw [show (3:ℕ).choose 2 = 3 from rfl, show (3:ℕ).choose 3 = 1 from rfl]
  norm_num
  ring

end BracketSim

namespace ELOCalc

/-- Model of `ELOCalculator.expected_score` (src/elo_calculator.py):
`1.0 / (1.0 + 10 ** ((rating_b - rating_a) / 400.0))`, modelled over `ℝ`
with the real power `10 ^ x`. -/
noncomputable def expected_score (rating_a rating_b : ℝ) : ℝ :=
  1 / (1 + (10 : ℝ) ^ ((rating_b - rating_a) / 400))

/-- Model of `ELOCalculator.calculate_actual_score` (src/elo_calculator.py):
binary mode returns `1.0 if maps_won > maps_lost else 0.0`; fractional mode
returns `maps_won / total_maps`, with `0.5` when `total_maps == 0`. -/
noncomputable def calculate_actual_score (use_map_scores : Bool) (maps_won maps_lost : ℕ) : ℝ :=
  match use_map_scores with
  | false => if maps_lost < maps_won then 1 else 0
  | true =>
    if maps_won + maps_lost = 0 then 1/2
    else (maps_won : ℝ) / ((maps_won : ℝ) + (maps_lost : ℝ))

/-- Model of `ELOCalculator.update_ratings` (src/elo_calculator.py), restricted to the
rating arithmetic: the current ratings `rating_a`, `rating_b` read from the
(defaultdict) table are parameters, and the pair of new ratings written back
is returned.

    new_rating_a = rating_a + self.k_factor * (actual_a - expected_a)
    new_rating_b = rating_b + self.k_factor * (actual_b - expected_b)
-/
noncomputable def update_ratings (k_factor : ℝ) (use_map_scores : Bool)
    (rating_a rating_b : ℝ) (team_a_maps team_b_maps : ℕ) : ℝ × ℝ :=
  let expected_a := expected_score rating_a rating_b
  let expected_b := expected_score rating_b rating_a
  let actual_a := calculate_actual_score use_map_scores team_a_maps team_b_maps
  let actual_b := calculate_actual_score use_map_scores team_b_maps team_a_maps
  (rating_a + k_factor * (actual_a - expected_a),
   rating_b + k_factor * (actual_b - expected_b))

theorem expected_score_add_symm (a b : ℝ) :
    expected_score a b + expected_score b a = 1 := by
  rw [expected_score, expected_score]
  have hx : (a - b) / 400 = -((b - a) / 400) := by ring
  rw [hx, Real.rpow_neg (by norm_num)]
  have hpos : (0 : ℝ) < (10 : ℝ) ^ ((b - a) / 400) :=
    Real.rpow_pos_of_pos (by norm_num) _
  have h1 : (1 : ℝ) + (10 : ℝ) ^ ((b - a) / 400) ≠ 0 := by positivity
  have h2 : (1 : ℝ) + ((10 : ℝ) ^ ((b - a) / 400))⁻¹ ≠ 0 := by positivity
  field_simp
  ring

theorem actual_score_add_frac (ma mb : ℕ) :
    calculate_actual_score true ma mb + calculate_actual_score true mb ma = 1 := by
  show (if ma + mb = 0 then (1:ℝ)/2 else (ma:ℝ)/((ma:ℝ)+(mb:ℝ)))
      + (if mb + ma = 0 then (1:ℝ)/2 else (mb:ℝ)/((mb:ℝ)+(ma:ℝ))) = 1
  by_cases h : ma + mb = 0
  · rw [if_pos h, if_pos (by omega)]
    norm_num
  · rw [if_neg h, if_neg (by omega)]
    have hpos : (0:ℝ) < (ma:ℝ) + (mb:ℝ) := by
      have h0 : 0 < ma + mb := Nat.pos_of_ne_zero h
      exact_mod_cast h0
    rw [show (mb:ℝ) + (ma:ℝ) = (ma:ℝ) + (mb:ℝ) from by ring, div_add_div_same]
    exact div_self (ne_of_gt hpos)

theorem actual_score_add_binary (ma mb : ℕ) (h : ma ≠ mb) :
    calculate_actual_score false ma mb + calculate_actual_score false mb ma = 1 := by
  show (if mb < ma then (1:ℝ) else 0) + (if ma < mb then (1:ℝ) else 0) = 1
  rcases Nat.lt_or_ge ma mb with hlt | hge
  · rw [if_neg (by omega), if_pos hlt]
    norm_num
  · have hlt : mb < ma := by omega
    rw [if_pos hlt, if_neg (by omega)]
    norm_num

theorem actual_score_tie_binary (ma mb : ℕ) (h : ma = mb) :
    calculate_actual_score false ma mb + calculate_actual_score false mb ma = 0 := by
  show (if mb < ma then (1:ℝ) else 0) + (if ma < mb then (1:ℝ) else 0) = 0
  rw [if_neg (by omega), if_neg (by omega)]
  norm_num

/-- C1 as stated is false: under binary scoring (`use_map_scores = False`) a
tied map count loses `k_factor` rating points from the pool.  At ratings
1500/1500, K = 32, maps 1–1, the new ratings sum to 2968 ≠ 3000. -/
theorem update_ratings_zero_sum_counterexample :
    (update_ratings 32 false 1500 1500 1 1).1 + (update_ratings 32 false 1500 1500 1 1).2
      ≠ 1500 + 1500 := by
  have he : expected_score 1500 1500 = 1/2 := by
    rw [expected_score]
    norm_num [Real.rpow_zero]
  have ha : calculate_actual_score false 1 1 = 0 := by
    show (if (1:ℕ) < 1 then (1:ℝ) else 0) = 0
    norm_num
  simp only [update_ratings, he, ha]
  norm_num

/-- C1 amended: the zero-sum invariant
`newRatingA + newRatingB = oldRatingA + oldRatingB` holds for every match
under fractional scoring (`use_map_scores = True`), and under binary scoring
whenever the two map counts differ; under binary scoring a tied map count
instead decreases the rating pool by exactly `k_factor`. -/
theorem update_ratings_zero_sum (k : ℝ) (use_map_scores : Bool) (ra rb : ℝ)
    (ma mb : ℕ) :
    ((use_map_scores = true ∨ ma ≠ mb) →
        (update_ratings k use_map_scores ra rb ma mb).1
          + (update_ratings k use_map_scores ra rb ma mb).2 = ra + rb)
    ∧ (use_map_scores = false → ma = mb →
        (update_ratings k use_map_scores ra rb ma mb).1
          + (update_ratings k use_map_scores ra rb ma mb).2 = ra + rb - k) := by
  have hexp := expected_score_add_symm ra rb
  constructor
  · intro hcase
    have hact : calculate_actual_score use_map_scores ma mb
        + calculate_actual_score use_map_scores mb ma = 1 := by
      rcases hcase with hms | hne
      · rw [hms]
        exact actual_score_add_frac ma mb
      · cases use_map_scores with
        | false => exact actual_score_add_binary ma mb hne
        | true => exact actual_score_add_frac ma mb
    simp only [update_ratings]
    linear_combination k * hact - k * hexp
  · intro hms htie
    have hact := actual_score_tie_binary ma mb htie
    rw [hms]
    simp only [update_ratings]
    linear_combination k * hact - k * hexp

/-- Witness for the amended C1: a 2–1 fractional-mode match preserves the
pool, and a 1–1 binary-mode tie costs exactly K = 32. -/
theorem update_ratings_zero_sum_witness :
    ((true = true ∨ (2:ℕ) ≠ 1) ∧
      (update_ratings 32 true 1500 1600 2 1).1
        + (update_ratings 32 true 1500 1600 2 1).2 = 1500 + 1600) ∧
    ((update_ratings 32 false 1500 1500 1 1).1
        + (update_ratings 32 false 1500 1500 1 1).2 = 1500 + 1500 - 32) :=
  ⟨⟨Or.inl rfl,
      (update_ratings_zero_sum 32 true 1500 1600 2 1).1 (Or.inl rfl)⟩,
    (update_ratings_zero_sum 32 false 1500 1500 1 1).2 rfl rfl⟩

end ELOCalc

namespace SimCore

variable {α : Type}

/-- One round of `BracketSimulator.simulate_tournament_with_tracking`
(src/src/bracket_simulator.py):

    for i in range(0, len(remaining_teams), 2):
        team_a = remaining_teams[i]
        team_b = remaining_teams[i + 1]
        winner = self.simulate_match(team_a, team_b)
        next_round_teams.append(winner)

`remaining_teams[i + 1]` on an odd-length list is an out-of-bounds index,
hence `IndexError`.  `simulate_match` returns `team_a` or `team_b` according
to a random draw; the draw stream is the oracle `pick`, consuming one index
per match. -/
def roundPairs (pick : ℕ → α → α → α) : ℕ → List α → Except String (List α × ℕ)
  | c, [] => .ok ([], c)
  | _, [_] => .error ("IndexError")
  | c, a :: b :: rest =>
    match roundPairs pick (c + 1) rest with
    | .error e => .error e
    | .ok (l, c2) => .ok (pick c a b :: l, c2)

theorem roundPairs_ok_length (pick : ℕ → α → α → α) :
    ∀ (l : List α) (c : ℕ) (l2 : List α) (c2 : ℕ),
      roundPairs pick c l = .ok (l2, c2) → l.length = 2 * l2.length
  | [], c, l2, c2 => by
    intro h
    simp only [roundPairs] at h
    cases h
    simp
  | [a], c, l2, c2 => by
    intro h
    simp only [roundPairs] at h
    exact absurd h (by simp)
  | a :: b :: rest, c, l2, c2 => by
    intro h
    simp only [roundPairs] at h
    cases hr : roundPairs pick (c + 1) rest with
    | error e => rw [hr] at h; exact absurd h (by simp)
    | ok pr =>
      obtain ⟨l', c'⟩ := pr
      rw [hr] at h
      simp only [Except.ok.injEq, Prod.mk.injEq] at h
      obtain ⟨hl, _⟩ := h
      have ih := roundPairs_ok_length pick rest (c + 1) l' c' hr
      subst hl
      simp [List.length_cons]
      omega

theorem roundPairs_even_ok (pick : ℕ → α → α → α) :
    ∀ (l : List α) (c : ℕ), l.length % 2 = 0 →
      ∃ l2 c2, roundPairs pick c l = .ok (l2, c2)
  | [], c, _ => ⟨[], c, rfl⟩
  | [a], c, h => by simp at h
  | a :: b :: rest, c, h => by
    obtain ⟨l2, c2, hr⟩ := roundPairs_even_ok pick rest (c + 1) (by
      simp only [List.length_cons] at h
      omega)
    exact ⟨pick c a b :: l2, c2, by simp [roundPairs, hr]⟩

theorem roundPairs_odd_err (pick : ℕ → α → α → α) :
    ∀ (l : List α) (c : ℕ), l.length % 2 = 1 →
      roundPairs pick c l = .error ("IndexError")
  | [], c, h => by simp at h
  | [a], c, _ => rfl
  | a :: b :: rest, c, h => by
    have ih := roundPairs_odd_err pick rest (c + 1) (by
      simp only [List.length_cons] at h
      omega)
    simp [roundPairs, ih]

theorem roundPairs_count [DecidableEq α] (pick : ℕ → α → α → α)
    (hpick : ∀ c a b, pick c a b = a ∨ pick c a b = b) (x : α) :
    ∀ (l : List α) (c : ℕ) (l2 : List α) (c2 : ℕ),
      roundPairs pick c l = .ok (l2, c2) → l2.count x ≤ l.count x
  | [], c, l2, c2 => by
    intro h
    simp only [roundPairs] at h
    cases h
    simp
  | [a], c, l2, c2 => by
    intro h
    simp only [roundPairs] at h
    exact absurd h (by simp)
  | a :: b :: rest, c, l2, c2 => by
    intro h
    simp only [roundPairs] at h
    cases hr : roundPairs pick (c + 1) rest with
    | error e => rw [hr] at h; exact absurd h (by simp)
    | ok pr =>
      obtain ⟨l', c'⟩ := pr
      rw [hr] at h
      simp only [Except.ok.injEq, Prod.mk.injEq] at h
      obtain ⟨hl, _⟩ := h
      have ih := roundPairs_count pick hpick x rest (c + 1) l' c' hr
      subst hl
      simp only [List.count_cons]
      rcases hpick c a b with hw | hw <;> rw [hw] <;> split_ifs <;> omega

/-- Model of `BracketSimulator.simulate_tournament_with_tracking`
(src/src/bracket_simulator.py):

    remaining_teams = self.teams.copy()
    while len(remaining_teams) > 1:
        self.track_advancement(len(remaining_teams), remaining_teams)
        ... pair up, simulate, collect winners ...
        remaining_teams = next_round_teams
    champion = remaining_teams[0]
    self.simulation_results[champion["name"]]["championships"] += 1

The returned value carries the data written into the mutated `simulation_results` per
trial: the list of `(team count, alive teams)` records written by
`track_advancement` (in round order), the champion, and the final oracle
index.  `remaining_teams[0]` of an empty list is an `IndexError`. -/
def simWithTracking (pick : ℕ → α → α → α) (c : ℕ) (l : List α) :
    Except String (List (ℕ × List α) × α × ℕ) :=
  if h : l.length ≤ 1 then
    match l with
    | [] => .error ("IndexError")
    | a :: _ => .ok ([], a, c)
  else
    match hr : roundPairs pick c l with
    | .error e => .error e
    | .ok (l2, c2) =>
      match simWithTracking pick c2 l2 with
      | .error e => .error e
      | .ok (recs, ch, c3) => .ok ((l.length, l) :: recs, ch, c3)
termination_by l.length
decreasing_by
  have hlen := roundPairs_ok_length pick l c l2 c2 hr
  omega

/-- A team count is a power of two. -/
def IsPow2 (n : ℕ) : Prop := ∃ k, n = 2 ^ k

theorem not_isPow2_three : ¬ IsPow2 3 := by
  rintro ⟨k, hk⟩
  match k with
  | 0 => simp at hk
  | 1 => simp at hk
  | k + 2 =>
    rw [pow_succ, pow_succ] at hk
    have h1 : 1 ≤ 2 ^ k := Nat.one_le_two_pow
    omega

theorem simWithTracking_singleton (pick : ℕ → α → α → α) (c : ℕ) (a : α) :
    simWithTracking pick c [a] = .ok ([], a, c) := by
  rw [simWithTracking]
  simp

theorem simWithTracking_nil (pick : ℕ → α → α → α) (c : ℕ) :
    simWithTracking pick c ([] : List α) = .error ("IndexError") := by
  rw [simWithTracking]
  simp

theorem simWithTracking_not_pow2 (pick : ℕ → α → α → α) (l : List α) (c : ℕ)
    (h2 : 2 ≤ l.length) (hnp : ¬ IsPow2 l.length) :
    simWithTracking pick c l = .error ("IndexError") := by
  suffices H : ∀ N (l : List α) (c : ℕ), l.length = N → 2 ≤ N → ¬ IsPow2 N →
      simWithTracking pick c l = .error ("IndexError") from
    H l.length l c rfl h2 hnp
  intro N
  induction N using Nat.strong_induction_on with
  | _ N ih =>
    intro l c hlen hN2 hNnp
    by_cases hpar : N % 2 = 1
    · have hr := roundPairs_odd_err pick l c (by omega)
      rw [simWithTracking, dif_neg (by omega), hr]
    · obtain ⟨M, rfl⟩ : ∃ M, N = 2 * M := ⟨N / 2, by omega⟩
      obtain ⟨l2, c2, hr⟩ := roundPairs_even_ok pick l c (by omega)
      have hlen2 : l2.length = M := by
        have := roundPairs_ok_length pick l c l2 c2 hr
        omega
      have hM2 : 2 ≤ M := by
        rcases Nat.lt_or_ge M 2 with hM | hM
        · interval_cases M
          · omega
          · exact absurd ⟨1, rfl⟩ hNnp
        · exact hM
      have hMnp : ¬ IsPow2 M := by
        rintro ⟨k, rfl⟩
        exact hNnp ⟨k + 1, by ring⟩
      have hrec := ih M (by omega) l2 c2 hlen2 hM2 hMnp
      rw [simWithTracking, dif_neg (by omega), hr]
      simp only [hrec]

/-- C2 amended: the engine performs no bracket-size validation.  On any team
list whose size is at least 2 and not a power of two the tournament loop
eventually pairs an odd number of alive teams and dies with an `IndexError`
(from `remaining_teams[i + 1]`); an empty list dies with an `IndexError`
(from `remaining_teams[0]`); a single team is not rejected but returned as
champion immediately.  No `InvalidBracketSize` error exists in the code. -/
theorem bracket_size_failure (pick : ℕ → α → α → α) (l : List α) (c : ℕ) (a : α) :
    (2 ≤ l.length → ¬ IsPow2 l.length →
        simWithTracking pick c l = .error ("IndexError"))
    ∧ simWithTracking pick c [a] = .ok ([], a, c)
    ∧ simWithTracking pick c ([] : List α) = .error ("IndexError") :=
  ⟨fun h2 hnp => simWithTracking_not_pow2 pick l c h2 hnp,
    simWithTracking_singleton pick c a,
    simWithTracking_nil pick c⟩

/-- Witness for the amended C2: a 3-team bracket errors, a 1-team bracket
is returned as champion. -/
theorem bracket_size_failure_witness :
    ((2 ≤ ([0, 1, 2] : List ℕ).length) ∧
      simWithTracking (fun _ x _ => x) 0 ([0, 1, 2] : List ℕ) = .error ("IndexError"))
    ∧ simWithTracking (fun _ x _ => x) 0 ([5] : List ℕ) = .ok ([], 5, 0) :=
  ⟨⟨by norm_num,
      (bracket_size_failure (fun _ x _ => x) [0, 1, 2] 0 5).1 (by norm_num)
        (by simpa using not_isPow2_three)⟩,
    (bracket_size_failure (fun _ x _ => x) [0, 1, 2] 0 5).2.1⟩

/-- C2 as stated is false at the concrete input of a single team: the claim
says fewer than 2 teams is rejected, but `simulate_tournament_with_tracking`
returns the single team as champion with no error (and a 3-team bracket dies
with a plain `IndexError`, not an `InvalidBracketSize`). -/
theorem bracket_size_counterexample :
    simWithTracking (fun _ x _ : ℕ => x) 0 ([7] : List ℕ) = .ok ([], 7, 0)
      ∧ simWithTracking (fun _ x _ : ℕ => x) 0 ([0, 1, 2] : List ℕ)
          = .error ("IndexError") := by
  constructor
  · rw [simWithTracking]
    simp
  · have hr : roundPairs (fun _ x _ : ℕ => x) 0 ([0, 1, 2] : List ℕ)
        = .error ("IndexError") := rfl
    rw [simWithTracking, dif_neg (by norm_num), hr]

/-- The `reached_<get_round_name(count)>` counters of `simulation_results`
for one team, read off the per-trial records.  `get_round_name` is injective
on team counts (2 ↦ Finals, 4 ↦ Semifinals, 8 ↦ Quarterfinals,
n ↦ Round_of_n), so the counters are keyed here by the team count itself. -/
def reachCount [DecidableEq α] (recs : List (ℕ × List α)) (x : α) (m : ℕ) : ℕ :=
  ((recs.filter (fun r => r.1 = m)).map (fun r => r.2.count x)).sum

theorem reachCount_nil [DecidableEq α] (x : α) (m : ℕ) :
    reachCount ([] : List (ℕ × List α)) x m = 0 := rfl

theorem reachCount_cons [DecidableEq α] (m0 : ℕ) (L : List α)
    (recs : List (ℕ × List α)) (x : α) (m : ℕ) :
    reachCount ((m0, L) :: recs) x m
      = (if m0 = m then L.count x else 0) + reachCount recs x m := by
  by_cases h : m0 = m
  · simp [reachCount, List.filter_cons, h]
  · simp [reachCount, List.filter_cons, h]

theorem pow2_ne (i j : ℕ) (h : i ≠ j) : (2:ℕ) ^ i ≠ 2 ^ j :=
  fun he => h (Nat.pow_right_injective (by norm_num) he)

/-- Structure of one tracked trial on a `2^(k+1)`-team bracket: it succeeds;
the recorded count at the entry round equals each team's multiplicity in the
bracket; the recorded counts shrink with the round size; the champion is
counted at the final (2-team) round and belongs to the bracket; nothing is
recorded at sizes that are not rounds of this bracket. -/
theorem simWithTracking_pow2_facts [DecidableEq α] (pick : ℕ → α → α → α)
    (hpick : ∀ c a b, pick c a b = a ∨ pick c a b = b) :
    ∀ (k : ℕ) (l : List α) (c : ℕ), l.length = 2 ^ (k + 1) →
      ∃ recs ch c9, simWithTracking pick c l = .ok (recs, ch, c9)
        ∧ (∀ x : α, reachCount recs x (2 ^ (k + 1)) = l.count x)
        ∧ (∀ x : α, ∀ j, 1 ≤ j → j ≤ k →
            reachCount recs x (2 ^ j) ≤ reachCount recs x (2 ^ (j + 1)))
        ∧ (∀ x : α, (if ch = x then 1 else 0) ≤ reachCount recs x 2)
        ∧ ch ∈ l
        ∧ (∀ x : α, ∀ m, (∀ j, 1 ≤ j → j ≤ k + 1 → m ≠ 2 ^ j) →
            reachCount recs x m = 0) := by
  intro k
  induction k with
  | zero =>
    intro l c hlen
    have hl2 : l.length = 2 := by simpa using hlen
    obtain ⟨a, b, rfl⟩ : ∃ a b, l = [a, b] := by
      match l, hl2 with
      | [a, b], _ => exact ⟨a, b, rfl⟩
    have hsim : simWithTracking pick c [a, b] = .ok ([(2, [a, b])], pick c a b, c + 1) := by
      rw [simWithTracking, dif_neg (by simp)]
      have hr0 : roundPairs pick c [a, b] = .ok ([pick c a b], c + 1) := rfl
      rw [hr0]
      simp [simWithTracking_singleton]
    refine ⟨[(2, [a, b])], pick c a b, c + 1, hsim, ?_, ?_, ?_, ?_, ?_⟩
    · intro x
      rw [show (2:ℕ) ^ (0 + 1) = 2 by norm_num, reachCount_cons, reachCount_nil]
      simp
    · intro x j hj1 hj0
      omega
    · intro x
      rw [reachCount_cons, reachCount_nil, if_pos rfl]
      by_cases hx : pick c a b = x
      · rw [if_pos hx]
        have hxmem : x ∈ [a, b] := by
          rw [← hx]
          rcases hpick c a b with hw | hw <;> rw [hw] <;> simp
        have := List.count_pos_iff.mpr hxmem
        omega
      · rw [if_neg hx]
        omega
    · rcases hpick c a b with hw | hw <;> rw [hw] <;> simp
    · intro x m hm
      rw [reachCount_cons, reachCount_nil, if_neg, Nat.add_zero]
      have := hm 1 (by norm_num) (by norm_num)
      omega
  | succ k ih =>
    intro l c hlen
    obtain ⟨l2, c2, hr⟩ := roundPairs_even_ok pick l c (by
      rw [hlen, pow_succ]
      omega)
    have hlen2 : l2.length = 2 ^ (k + 1) := by
      have := roundPairs_ok_length pick l c l2 c2 hr
      rw [hlen, pow_succ] at this
      omega
    obtain ⟨recs2, ch, c9, hsim2, htop, hchain, hchamp, hmem, habsent⟩ :=
      ih l2 c2 hlen2
    have hne_top : ∀ j, 1 ≤ j → j ≤ k + 1 → (2:ℕ) ^ (k + 2) ≠ 2 ^ j :=
      fun j _ hj => pow2_ne (k + 2) j (by omega)
    have habs_top : ∀ x : α, reachCount recs2 x (2 ^ (k + 2)) = 0 :=
      fun x => habsent x (2 ^ (k + 2)) hne_top
    have hcount := fun x => roundPairs_count pick hpick x l c l2 c2 hr
    have hlen2' : 2 ≤ l.length := by
      rw [hlen]
      calc 2 = 2 ^ 1 := by norm_num
        _ ≤ 2 ^ (k + 1 + 1) := Nat.pow_le_pow_right (by norm_num) (by omega)
    have hne1 : l.length ≠ 2 := by
      rw [hlen]
      have h0 := pow2_ne (k + 1 + 1) 1 (by omega)
      simpa using h0
    have hsim : simWithTracking pick c l
        = .ok ((l.length, l) :: recs2, ch, c9) := by
      have hcond : ¬ l.length ≤ 1 := by omega
      rw [simWithTracking, dif_neg hcond, hr]
      simp only [hsim2]
    refine ⟨(l.length, l) :: recs2, ch, c9, hsim, ?_, ?_, ?_, ?_, ?_⟩
    · intro x
      rw [reachCount_cons, if_pos hlen, habsent x (2 ^ (k + 1 + 1))
        (fun j _ hj => pow2_ne (k + 1 + 1) j (by omega)), Nat.add_zero]
    · intro x j hj1 hjk
      rw [reachCount_cons, reachCount_cons]
      have hneA : ¬ l.length = 2 ^ j := by
        rw [hlen]
        exact pow2_ne (k + 1 + 1) j (by omega)
      by_cases hj : j ≤ k
      · have hneB : ¬ l.length = 2 ^ (j + 1) := by
          rw [hlen]
          exact pow2_ne (k + 1 + 1) (j + 1) (by omega)
        rw [if_neg hneA, if_neg hneB]
        have := hchain x j hj1 hj
        omega
      · have hj' : j = k + 1 := by omega
        subst hj'
        have hposB : l.length = 2 ^ (k + 1 + 1) := hlen
        rw [if_neg hneA, if_pos hposB,
          habsent x (2 ^ (k + 1 + 1)) (fun j _ hj => pow2_ne (k + 1 + 1) j (by omega))]
        have h1 := htop x
        have h2 := hcount x
        omega
    · intro x
      rw [reachCount_cons, if_neg hne1]
      have := hchamp x
      omega
    · have hch2 : 0 < l2.count ch := List.count_pos_iff.mpr hmem
      have := hcount ch
      exact List.count_pos_iff.mp (by omega)
    · intro x m hm
      have hneH : ¬ l.length = m := by
        rw [hlen]
        intro he
        exact hm (k + 1 + 1) (by omega) (by omega) he.symm
      rw [reachCount_cons, if_neg hneH,
        habsent x m (fun j h1 h2 => hm j h1 (by omega)), Nat.add_zero]

/-- Model of `BracketSimulator.run_simulation` (src/src/bracket_simulator.py): it resets
`simulation_results` and runs `n` tracked trials; trial `t` draws from the
oracle `picks t`.  The returned list carries each trial's records and
champion (the data accumulated into `simulation_results`). -/
def runTrials (picks : ℕ → ℕ → α → α → α) (l : List α) :
    ℕ → Except String (List (List (ℕ × List α) × α))
  | 0 => .ok []
  | n + 1 =>
    match runTrials picks l n with
    | .error e => .error e
    | .ok ts =>
      match simWithTracking (picks n) 0 l with
      | .error e => .error e
      | .ok (recs, ch, _) => .ok (ts ++ [(recs, ch)])

/-- The `championships` counter of a team over the recorded trials. -/
def champTotal [DecidableEq α] (ts : List (List (ℕ × List α) × α)) (x : α) : ℕ :=
  (ts.map (fun t => if t.2 = x then 1 else 0)).sum

/-- The `reached_<round>` counter of a team over the recorded trials, keyed
by the round's team count. -/
def reachTotal [DecidableEq α] (ts : List (List (ℕ × List α) × α)) (x : α) (m : ℕ) : ℕ :=
  (ts.map (fun t => reachCount t.1 x m)).sum

/-- The percentage statistic of function `calculate_statistics`
(src/src/bracket_simulator.py): `round(100.0 * count / total, 2)`, modelled
over `ℚ` with the integer rounding of Mathlib (Python's float `round` is
banker's rounding, which is likewise monotone, the only property used). -/
def pct (c n : ℕ) : ℚ := (round (100 * (c:ℚ) / n * 100) : ℚ) / 100

theorem pct_mono (c1 c2 n : ℕ) (h : c1 ≤ c2) : pct c1 n ≤ pct c2 n := by
  rw [pct, pct]
  have h1 : 100 * (c1:ℚ) / n * 100 ≤ 100 * (c2:ℚ) / n * 100 := by
    by_cases hn : (n:ℚ) = 0
    · simp [hn]
    · have hnp : (0:ℚ) < n := lt_of_le_of_ne (by positivity) (Ne.symm hn)
      have hc : (100:ℚ) * c1 ≤ 100 * c2 := by
        have : (c1:ℚ) ≤ c2 := by exact_mod_cast h
        linarith
      exact mul_le_mul_of_nonneg_right ((div_le_div_right hnp).mpr hc) (by norm_num)
  have h2 : round (100 * (c1:ℚ) / n * 100) ≤ round (100 * (c2:ℚ) / n * 100) := by
    rw [round_eq, round_eq]
    exact Int.floor_le_floor (by linarith)
  have h3 : ((round (100 * (c1:ℚ) / n * 100) : ℤ) : ℚ)
      ≤ ((round (100 * (c2:ℚ) / n * 100) : ℤ) : ℚ) := by exact_mod_cast h2
  exact (div_le_div_right (by norm_num : (0:ℚ) < 100)).mpr h3

theorem runTrials_pow2 [DecidableEq α] (picks : ℕ → ℕ → α → α → α)
    (hpicks : ∀ t c a b, picks t c a b = a ∨ picks t c a b = b)
    (k : ℕ) (l : List α) (hl : l.length = 2 ^ (k + 1)) :
    ∀ n, ∃ ts, runTrials picks l n = .ok ts ∧ ts.length = n
      ∧ (∀ t ∈ ts, t.2 ∈ l)
      ∧ (∀ x, champTotal ts x ≤ reachTotal ts x 2)
      ∧ (∀ x j, 1 ≤ j → j ≤ k → reachTotal ts x (2 ^ j) ≤ reachTotal ts x (2 ^ (j + 1))) := by
  intro n
  induction n with
  | zero => exact ⟨[], rfl, rfl, by simp, fun x => le_refl 0, fun x j _ _ => le_refl 0⟩
  | succ n ih =>
    obtain ⟨ts, hts, hlen, hmem, hchamp, hchain⟩ := ih
    obtain ⟨recs, ch, c9, hsim, _, hchainT, hchampT, hmemT, _⟩ :=
      simWithTracking_pow2_facts (picks n) (hpicks n) k l 0 hl
    refine ⟨ts ++ [(recs, ch)], ?_, ?_, ?_, ?_, ?_⟩
    · rw [runTrials, hts]
      simp only [hsim]
    · simp [hlen]
    · intro t ht
      rcases List.mem_append.mp ht with h | h
      · exact hmem t h
      · simp at h
        rw [h]
        exact hmemT
    · intro x
      rw [champTotal, reachTotal, List.map_append, List.map_append,
        List.sum_append, List.sum_append]
      have h1 := hchamp x
      have h2 := hchampT x
      rw [champTotal] at h1
      rw [reachTotal] at h1
      simp only [List.map_cons, List.map_nil, List.sum_cons, List.sum_nil]
      omega
    · intro x j hj1 hjk
      rw [reachTotal, reachTotal, List.map_append, List.map_append,
        List.sum_append, List.sum_append]
      have h1 := hchain x j hj1 hjk
      have h2 := hchainT x j hj1 hjk
      rw [reachTotal, reachTotal] at h1
      simp only [List.map_cons, List.map_nil, List.sum_cons, List.sum_nil]
      omega

/-- C5: on a power-of-two bracket every run of `run_simulation` yields, for
every team, monotonically non-increasing counters and reported percentages
along the elimination path: championships ≤ reached-finals (team count 2)
≤ reached-semifinals (4, when the bracket has at least 4 teams)
≤ reached-quarterfinals (8, when it has at least 8). -/
theorem round_reach_monotone [DecidableEq α] (picks : ℕ → ℕ → α → α → α)
    (hpicks : ∀ t c a b, picks t c a b = a ∨ picks t c a b = b)
    (k n : ℕ) (l : List α) (hk : 1 ≤ k) (hl : l.length = 2 ^ k) :
    ∃ ts, runTrials picks l n = .ok ts ∧ ∀ x,
      (champTotal ts x ≤ reachTotal ts x 2
        ∧ pct (champTotal ts x) n ≤ pct (reachTotal ts x 2) n)
      ∧ (2 ≤ k → reachTotal ts x 2 ≤ reachTotal ts x 4
          ∧ pct (reachTotal ts x 2) n ≤ pct (reachTotal ts x 4) n)
      ∧ (3 ≤ k → reachTotal ts x 4 ≤ reachTotal ts x 8
          ∧ pct (reachTotal ts x 4) n ≤ pct (reachTotal ts x 8) n) := by
  obtain ⟨k', rfl⟩ : ∃ k', k = k' + 1 := ⟨k - 1, by omega⟩
  obtain ⟨ts, hts, hlen, hmem, hchamp, hchain⟩ := runTrials_pow2 picks hpicks k' l hl n
  refine ⟨ts, hts, fun x => ⟨⟨hchamp x, pct_mono _ _ n (hchamp x)⟩, ?_, ?_⟩⟩
  · intro h2
    have hc := hchain x 1 (by norm_num) (by omega)
    rw [show (2:ℕ) ^ 1 = 2 by norm_num, show (2:ℕ) ^ (1 + 1) = 4 by norm_num] at hc
    exact ⟨hc, pct_mono _ _ n hc⟩
  · intro h3
    have hc := hchain x 2 (by norm_num) (by omega)
    rw [show (2:ℕ) ^ 2 = 4 by norm_num, show (2:ℕ) ^ (2 + 1) = 8 by norm_num] at hc
    exact ⟨hc, pct_mono _ _ n hc⟩

/-- Witness for C5: a 2-team bracket, one trial, first team always wins. -/
theorem round_reach_monotone_witness :
    ((1:ℕ) ≤ 1 ∧ ([0, 1] : List ℕ).length = 2 ^ 1) ∧
      (∃ ts, runTrials (fun _ _ a _ => a) ([0, 1] : List ℕ) 1 = .ok ts ∧ ∀ x,
        (champTotal ts x ≤ reachTotal ts x 2
          ∧ pct (champTotal ts x) 1 ≤ pct (reachTotal ts x 2) 1)
        ∧ (2 ≤ 1 → reachTotal ts x 2 ≤ reachTotal ts x 4
            ∧ pct (reachTotal ts x 2) 1 ≤ pct (reachTotal ts x 4) 1)
        ∧ (3 ≤ 1 → reachTotal ts x 4 ≤ reachTotal ts x 8
            ∧ pct (reachTotal ts x 4) 1 ≤ pct (reachTotal ts x 8) 1)) :=
  ⟨⟨by norm_num, by norm_num⟩,
    round_reach_monotone (fun _ _ a _ => a) (fun _ _ _ _ => Or.inl rfl) 1 1 [0, 1]
      (by norm_num) (by norm_num)⟩

theorem champTotal_sum [DecidableEq α] (l : List α)
    (ts : List (List (ℕ × List α) × α)) (h : ∀ t ∈ ts, t.2 ∈ l) :
    ∑ x in l.toFinset, champTotal ts x = ts.length := by
  induction ts with
  | nil => simp [champTotal]
  | cons t ts ih =>
    have hm : t.2 ∈ l := h t (List.mem_cons_self t ts)
    have hrest : ∀ t2 ∈ ts, t2.2 ∈ l := fun t2 ht2 => h t2 (List.mem_cons_of_mem t ht2)
    have hsplit : ∀ x ∈ l.toFinset,
        champTotal (t :: ts) x = (if t.2 = x then 1 else 0) + champTotal ts x := by
      intro x _
      simp [champTotal]
    rw [Finset.sum_congr rfl hsplit, Finset.sum_add_distrib, ih hrest]
    have hone : ∑ x in l.toFinset, (if t.2 = x then 1 else 0) = 1 := by
      rw [Finset.sum_ite_eq]
      simp [List.mem_toFinset, hm]
    rw [hone, List.length_cons]
    omega

/-- C6: over a power-of-two bracket, every trial crowns exactly one champion,
so the `championships` counters summed over the distinct teams equal the
trial count, and the (unrounded) championship percentages sum to exactly
100. -/
theorem championships_sum_100 [DecidableEq α] (picks : ℕ → ℕ → α → α → α)
    (hpicks : ∀ t c a b, picks t c a b = a ∨ picks t c a b = b)
    (k n : ℕ) (l : List α) (hk : 1 ≤ k) (hl : l.length = 2 ^ k) :
    ∃ ts, runTrials picks l n = .ok ts
      ∧ ∑ x in l.toFinset, champTotal ts x = n
      ∧ (1 ≤ n → ∑ x in l.toFinset, (100 * (champTotal ts x : ℚ) / n) = 100) := by
  obtain ⟨k', rfl⟩ : ∃ k', k = k' + 1 := ⟨k - 1, by omega⟩
  obtain ⟨ts, hts, hlen, hmem, _, _⟩ := runTrials_pow2 picks hpicks k' l hl n
  have hsum := champTotal_sum l ts hmem
  rw [hlen] at hsum
  refine ⟨ts, hts, hsum, ?_⟩
  intro hn
  have hnq : (n:ℚ) ≠ 0 := Nat.cast_ne_zero.mpr (by omega)
  have h1 : (100 * ∑ x in l.toFinset, (champTotal ts x : ℚ)) / n
      = ∑ x in l.toFinset, 100 * (champTotal ts x : ℚ) / n := by
    rw [Finset.mul_sum, Finset.sum_div]
  have h2 : ∑ x in l.toFinset, (champTotal ts x : ℚ) = n := by
    rw [← Nat.cast_sum, hsum]
  rw [← h1, h2]
  field_simp

/-- Witness for C6: a 2-team bracket, two trials, first team always wins. -/
theorem championships_sum_100_witness :
    ((1:ℕ) ≤ 1 ∧ ([0, 1] : List ℕ).length = 2 ^ 1) ∧
      (∃ ts, runTrials (fun _ _ a _ => a) ([0, 1] : List ℕ) 2 = .ok ts
        ∧ ∑ x in ([0, 1] : List ℕ).toFinset, champTotal ts x = 2
        ∧ (1 ≤ 2 → ∑ x in ([0, 1] : List ℕ).toFinset,
            (100 * (champTotal ts x : ℚ) / 2) = 100)) :=
  ⟨⟨by norm_num, by norm_num⟩,
    championships_sum_100 (fun _ _ a _ => a) (fun _ _ _ _ => Or.inl rfl) 1 2 [0, 1]
      (by norm_num) (by norm_num)⟩

/-- The sort key relation of `calculate_statistics`
(src/src/bracket_simulator.py): `stats.sort(key=lambda t:
t["championship_prob"], reverse=True)` orders stat records by descending
championship probability. -/
def statLE (s1 s2 : α × ℚ) : Prop := s2.2 ≤ s1.2

instance : DecidableRel (statLE (α := α)) :=
  fun s1 s2 => inferInstanceAs (Decidable (s2.2 ≤ s1.2))

instance : IsTotal (α × ℚ) statLE := ⟨fun a b => le_total b.2 a.2⟩

instance : IsTrans (α × ℚ) statLE := ⟨fun _ _ _ h1 h2 => le_trans h2 h1⟩

/-- Model of `BracketSimulator.calculate_statistics` (src/src/bracket_simulator.py),
restricted to the data C7 is about: one stat record `(team,
championship_prob)` per team of `self.teams` in seed order, where
`championship_prob = round(100 * championships / total, 2)`, then
`stats.sort(key=..., reverse=True)`.  Python's `list.sort` is a stable sort,
and every stable sort of a list yields the same result, so it is modelled by
the (stable) insertion sort. -/
def calculate_statistics [DecidableEq α] (teams : List α)
    (ts : List (List (ℕ × List α) × α)) (n : ℕ) : List (α × ℚ) :=
  List.insertionSort statLE (teams.map (fun t => (t, pct (champTotal ts t) n)))

theorem filter_orderedInsert_key (c : ℚ) (b : α × ℚ) (L : List (α × ℚ)) :
    (List.orderedInsert statLE b L).filter (fun s => s.2 = c)
      = (if b.2 = c then [b] else []) ++ L.filter (fun s => s.2 = c) := by
  rw [List.orderedInsert_eq_take_drop, List.filter_append]
  by_cases hb : b.2 = c
  · have hnil : (L.takeWhile (fun s => ¬ statLE b s)).filter (fun s => s.2 = c) = [] := by
      rw [List.filter_eq_nil_iff]
      intro y hy
      have hy2 := List.mem_takeWhile_imp hy
      simp only [decide_eq_true_eq] at hy2
      simp only [decide_eq_true_eq]
      intro hyc
      exact hy2 (by rw [statLE, hyc, hb])
    rw [hnil, if_pos hb]
    have hdrop : (b :: L.dropWhile (fun s => ¬ statLE b s)).filter (fun s => s.2 = c)
        = b :: (L.dropWhile (fun s => ¬ statLE b s)).filter (fun s => s.2 = c) :=
      List.filter_cons_of_pos (by simp [hb])
    rw [hdrop]
    have hL : L.filter (fun s => s.2 = c)
        = (L.takeWhile (fun s => ¬ statLE b s)).filter (fun s => s.2 = c)
          ++ (L.dropWhile (fun s => ¬ statLE b s)).filter (fun s => s.2 = c) := by
      rw [← List.filter_append, List.takeWhile_append_dropWhile]
    rw [hL, hnil]
    simp
  · rw [if_neg hb]
    have hdrop : (b :: L.dropWhile (fun s => ¬ statLE b s)).filter (fun s => s.2 = c)
        = (L.dropWhile (fun s => ¬ statLE b s)).filter (fun s => s.2 = c) :=
      List.filter_cons_of_neg (by simp [hb])
    rw [hdrop]
    have hL : L.filter (fun s => s.2 = c)
        = (L.takeWhile (fun s => ¬ statLE b s)).filter (fun s => s.2 = c)
          ++ (L.dropWhile (fun s => ¬ statLE b s)).filter (fun s => s.2 = c) := by
      rw [← List.filter_append, List.takeWhile_append_dropWhile]
    rw [hL]
    simp

theorem filter_insertionSort_key (c : ℚ) :
    ∀ L : List (α × ℚ),
      (List.insertionSort statLE L).filter (fun s => s.2 = c)
        = L.filter (fun s => s.2 = c)
  | [] => rfl
  | b :: L => by
    rw [List.insertionSort, filter_orderedInsert_key c b,
      filter_insertionSort_key c L]
    by_cases hb : b.2 = c
    · rw [if_pos hb, List.filter_cons_of_pos (by simp [hb])]
      rfl
    · rw [if_neg hb, List.filter_cons_of_neg (by simp [hb])]
      rfl

/-- C7: the statistics list is sorted by championship probability in
descending order, it is a permutation of the per-team records built in seed
order, and every group of teams with equal championship probability appears
in exactly its original (seed) order — the filter at each probability value
is unchanged by the sort, which is the stability guarantee. -/
theorem calculate_statistics_sorted_stable [DecidableEq α] (teams : List α)
    (ts : List (List (ℕ × List α) × α)) (n : ℕ) :
    List.Pairwise (fun s1 s2 : α × ℚ => s2.2 ≤ s1.2) (calculate_statistics teams ts n)
    ∧ (calculate_statistics teams ts n).Perm
        (teams.map (fun t => (t, pct (champTotal ts t) n)))
    ∧ ∀ c : ℚ, (calculate_statistics teams ts n).filter (fun s => s.2 = c)
        = (teams.map (fun t => (t, pct (champTotal ts t) n))).filter
            (fun s => s.2 = c) :=
  ⟨List.sorted_insertionSort statLE _,
    List.perm_insertionSort statLE _,
    fun c => filter_insertionSort_key c _⟩

end SimCore


namespace Validator

/-- One round of the bracket loop in `predict_tournament_winner`
(src/src/tournament_validator.py):

    for i in range(0, len(remaining), 2):
        if i + 1 >= len(remaining):
            next_round.append(remaining[i])
            continue
        ... winner = team_a if random.random() < series_prob_a else team_b ...

An unpaired trailing team gets a bye (appended without consuming a draw);
the winner choice is the oracle `pick`, one index per played match. -/
def roundBye (pick : ℕ → α → α → α) : ℕ → List α → List α × ℕ
  | c, [] => ([], c)
  | c, [a] => ([a], c)
  | c, a :: b :: rest =>
    let r := roundBye pick (c + 1) rest
    (pick c a b :: r.1, r.2)

theorem roundBye_length (pick : ℕ → α → α → α) :
    ∀ (c : ℕ) (l : List α), (roundBye pick c l).1.length = (l.length + 1) / 2
  | _, [] => by simp [roundBye]
  | _, [_] => by simp [roundBye]
  | c, a :: b :: rest => by
    simp only [roundBye, List.length_cons]
    rw [roundBye_length pick (c + 1) rest]
    omega

theorem roundBye_mem (pick : ℕ → α → α → α)
    (hpick : ∀ c a b, pick c a b = a ∨ pick c a b = b) :
    ∀ (c : ℕ) (l : List α) (y : α), y ∈ (roundBye pick c l).1 → y ∈ l
  | c, [], y => by simp [roundBye]
  | c, [a], y => by simp [roundBye]
  | c, a :: b :: rest, y => by
    simp only [roundBye, List.mem_cons]
    rintro (h | h)
    · rcases hpick c a b with hw | hw <;> rw [hw] at h <;> simp [h]
    · exact Or.inr (Or.inr (roundBye_mem pick hpick (c + 1) rest y h))

/-- The bracket loop (`while len(remaining) > 1`) of `predict_tournament_winner`
(src/src/tournament_validator.py). -/
def bracketLoop (pick : ℕ → α → α → α) (c : ℕ) (l : List α) : List α :=
  if h : l.length ≤ 1 then l
  else bracketLoop pick (roundBye pick c l).2 (roundBye pick c l).1
termination_by l.length
decreasing_by
  have := roundBye_length pick c l
  omega

/-- C10: the validator's bracket loop is total on every bracket of at least
2 teams — power of two or not, the bye branch keeps every index in bounds —
and each trial terminates with exactly one winner, a member of the original
bracket. -/
theorem bracketLoop_one_winner (pick : ℕ → α → α → α)
    (hpick : ∀ c a b, pick c a b = a ∨ pick c a b = b)
    (l : List α) (c : ℕ) (h2 : 2 ≤ l.length) :
    ∃ w, bracketLoop pick c l = [w] ∧ w ∈ l := by
  suffices H : ∀ N (l : List α) (c : ℕ), l.length = N → 1 ≤ N →
      ∃ w, bracketLoop pick c l = [w] ∧ w ∈ l from
    H l.length l c rfl (by omega)
  intro N
  induction N using Nat.strong_induction_on with
  | _ N ih =>
    intro l c hlen hN1
    by_cases hN : N ≤ 1
    · have h1 : N = 1 := by omega
      obtain ⟨a, rfl⟩ : ∃ a, l = [a] := by
        have hl1 : l.length = 1 := by omega
        match l, hl1 with
        | [a], _ => exact ⟨a, rfl⟩
      refine ⟨a, ?_, by simp⟩
      rw [bracketLoop, dif_pos (by simp)]
    · have hr := roundBye_length pick c l
      have hlt : (roundBye pick c l).1.length < N := by omega
      have hge : 1 ≤ (roundBye pick c l).1.length := by omega
      obtain ⟨w, hw, hwm⟩ := ih (roundBye pick c l).1.length hlt
        (roundBye pick c l).1 (roundBye pick c l).2 rfl hge
      refine ⟨w, ?_, roundBye_mem pick hpick c l w hwm⟩
      rw [bracketLoop, dif_neg (by omega)]
      exact hw

/-- Witness for C10: a 3-team (non-power-of-two) bracket terminates with one
winner. -/
theorem bracketLoop_one_winner_witness :
    (2 ≤ ([0, 1, 2] : List ℕ).length) ∧
      ∃ w, bracketLoop (fun _ a _ => a) 0 ([0, 1, 2] : List ℕ) = [w] ∧ w ∈ [0, 1, 2] :=
  ⟨by norm_num,
    bracketLoop_one_winner (fun _ a _ => a) (fun _ _ _ => Or.inl rfl) [0, 1, 2] 0
      (by norm_num)⟩

/-- A historical match record (`vct_matches_2024.json` entries). -/
structure MatchRec where
  team_a : String
  team_b : String
  score_a : ℕ
  score_b : ℕ

/-- Reading `ratings[name]` from the `defaultdict(lambda: 1500.0)` table. -/
noncomputable def ratingLookup (t : List (String × ℝ)) (name : String) : ℝ :=
  match t.find? (fun p => p.1 = name) with
  | some p => p.2
  | none => 1500

/-- Writing `ratings[name] = v` into the table. -/
noncomputable def ratingSet (t : List (String × ℝ)) (name : String) (v : ℝ) :
    List (String × ℝ) :=
  if (t.find? (fun p => p.1 = name)).isSome then
    t.map (fun p => if p.1 = name then (name, v) else p)
  else t ++ [(name, v)]

/-- One iteration of `calculate_elo_from_matches`
(src/src/tournament_validator.py): K = 32, initial rating 1500, fractional
(map-based) actual scores with 0.5 on a 0-0 record. -/
noncomputable def elo_update (t : List (String × ℝ)) (m : MatchRec) :
    List (String × ℝ) :=
  let ra := ratingLookup t m.team_a
  let rb := ratingLookup t m.team_b
  let expected_a := 1 / (1 + (10:ℝ) ^ ((rb - ra) / 400))
  let expected_b := 1 / (1 + (10:ℝ) ^ ((ra - rb) / 400))
  let total_maps := m.score_a + m.score_b
  let actual_a := if 0 < total_maps then (m.score_a : ℝ) / total_maps else 1/2
  let actual_b := if 0 < total_maps then (m.score_b : ℝ) / total_maps else 1/2
  let t1 := ratingSet t m.team_a (ra + 32 * (actual_a - expected_a))
  ratingSet t1 m.team_b (rb + 32 * (actual_b - expected_b))

/-- Model of `calculate_elo_from_matches` (src/src/tournament_validator.py). -/
noncomputable def calculate_elo_from_matches (ms : List MatchRec) :
    List (String × ℝ) :=
  ms.foldl elo_update []

/-- Model of `get_tournament_teams` (src/src/tournament_validator.py):
`sorted(list({team_a, team_b for each match}))`. -/
def get_tournament_teams (ms : List MatchRec) : List String :=
  List.insertionSort (· ≤ ·)
    ((ms.foldl (fun acc m => acc ++ [m.team_a, m.team_b]) []).dedup)

/-- The teams of the event that are present in the rating table, with their
ratings: `[{"name": name, "elo": team_ratings.get(name, 1500.0)} for name in
tournament_teams if name in team_ratings]`. -/
noncomputable def ratedParticipants (table : List (String × ℝ))
    (tnames : List String) : List (String × ℝ) :=
  tnames.filterMap (fun name =>
    (table.find? (fun p => p.1 = name)).map (fun _ => (name, ratingLookup table name)))

/-- The BO3 series probability computed inline in the validator's match
simulation, from the two effective ratings. -/
noncomputable def seriesProbBO3R (ra rb : ℝ) : ℝ :=
  let map_prob_a := 1 / (1 + (10:ℝ) ^ ((rb - ra) / 400))
  map_prob_a ^ 2 + 2 * map_prob_a ^ 2 * (1 - map_prob_a)

/-- Model of `predict_tournament_winner` (src/src/tournament_validator.py): filter to
rated teams, sort by ELO descending (stable), take the top 8, return `{}`
when fewer than 2 remain, otherwise Monte-Carlo the bracket (`draws t c` is
the `random.random()` stream of trial `t`) and return the championship
percentage per winning team. -/
noncomputable def predict_tournament_winner (draws : ℕ → ℕ → ℝ)
    (team_ratings : List (String × ℝ)) (tournament_teams : List String)
    (n_simulations : ℕ) : List (String × ℝ) :=
  let teams := ratedParticipants team_ratings tournament_teams
  let sorted := List.insertionSort (fun x y : String × ℝ => y.2 ≤ x.2) teams
  let bracket_teams := sorted.take 8
  if bracket_teams.length < 2 then []
  else
    let champs := (List.range n_simulations).filterMap (fun t =>
      (bracketLoop
        (fun c a b => if draws t c < seriesProbBO3R a.2 b.2 then a else b)
        0 bracket_teams).head?)
    let names := champs.map Prod.fst
    names.dedup.map (fun nm => (nm, ((names.count nm : ℝ) / n_simulations) * 100))

/-- The structured result of `validate_tournament`
(src/src/tournament_validator.py): either the insufficient-data record
`{"tournament": ..., "error": "Insufficient data"}` or the full report. -/
inductive ValidationOutcome where
  | insufficient (tournament : String)
  | indexErr
  | report (tournament predicted_winner : String)
      (predicted_prob actual_winner_prob : ℝ)
      (actual_winner_rank : Option ℕ) (correct : Bool)

/-- Model of `validate_tournament` (src/src/tournament_validator.py), carrying the
fields of its returned dict that the claims concern. -/
noncomputable def validate_tournament (draws : ℕ → ℕ → ℝ)
    (tournament_name : String) (training_matches tournament_matches : List MatchRec)
    (actual_winner : String) : ValidationOutcome :=
  let tournament_teams := get_tournament_teams tournament_matches
  let team_ratings := calculate_elo_from_matches training_matches
  let predictions := predict_tournament_winner draws team_ratings tournament_teams 5000
  match predictions with
  | [] => .insufficient tournament_name
  | _ :: _ =>
    let sorted := List.insertionSort (fun x y : String × ℝ => y.2 ≤ x.2) predictions
    match sorted with
    | [] => .indexErr
    | (w, wp) :: _ =>
      let awp := match predictions.find? (fun p => p.1 = actual_winner) with
        | some p => p.2
        | none => 0
      let rank := (sorted.findIdx? (fun p => p.1 = actual_winner)).map (· + 1)
      .report tournament_name w wp awp rank (w == actual_winner)

/-- C8: when fewer than 2 of the event's participants have ratings in the
table, `predict_tournament_winner` returns the empty mapping without
simulating, and `validate_tournament` reports the structured
insufficient-data result instead of raising. -/
theorem insufficient_data_reported (draws : ℕ → ℕ → ℝ) (tname : String)
    (training tmatches : List MatchRec) (aw : String)
    (h : (ratedParticipants (calculate_elo_from_matches training)
        (get_tournament_teams tmatches)).length < 2) :
    predict_tournament_winner draws (calculate_elo_from_matches training)
        (get_tournament_teams tmatches) 5000 = []
      ∧ validate_tournament draws tname training tmatches aw
          = .insufficient tname := by
  have hpred : predict_tournament_winner draws (calculate_elo_from_matches training)
      (get_tournament_teams tmatches) 5000 = [] := by
    rw [predict_tournament_winner]
    have hlen : ((List.insertionSort (fun x y : String × ℝ => y.2 ≤ x.2)
        (ratedParticipants (calculate_elo_from_matches training)
          (get_tournament_teams tmatches))).take 8).length < 2 := by
      rw [List.length_take,
        (List.perm_insertionSort (fun x y : String × ℝ => y.2 ≤ x.2) _).length_eq]
      omega
    rw [if_pos hlen]
  refine ⟨hpred, ?_⟩
  rw [validate_tournament]
  simp only [hpred]

/-- Witness for C8: empty training data and an empty event team list. -/
theorem insufficient_data_reported_witness :
    ((Validator.ratedParticipants (Validator.calculate_elo_from_matches [])
        (Validator.get_tournament_teams [])).length < 2) ∧
      (predict_tournament_winner (fun _ _ => 0)
          (Validator.calculate_elo_from_matches [])
          (Validator.get_tournament_teams []) 5000 = []
        ∧ validate_tournament (fun _ _ => 0) "T" [] [] "A"
            = .insufficient ("T")) :=
  ⟨by norm_num [Validator.ratedParticipants, Validator.calculate_elo_from_matches,
      Validator.get_tournament_teams],
    insufficient_data_reported (fun _ _ => 0) "T" [] [] "A"
      (by norm_num [Validator.ratedParticipants, Validator.calculate_elo_from_matches,
        Validator.get_tournament_teams])⟩

end Validator
